import Mathlib

/-!
Shallow embedding of the `rat` job scheduler (Rust, rusqlite-backed) and
proofs about its job store, job manager, and scheduler loop.

The SQLite database is modelled as an explicit `Store` value: the `jobs`
table and the `job_results` table are lists of rows kept in insertion
order (SQLite scans a plain table in rowid order, and rowids are assigned
as max+1).  Each Rust store operation from `src/lib.rs` becomes a Lean
function from `Store` to `Store` (plus its return value); a SQL statement
that can fail (the `NOT NULL` constraint on `job_results.status`) returns
`Except`.  A multi-statement transaction is a single Lean function, so an
intermediate state between its statements does not exist, which is the
embedding of atomicity.  `chrono::DateTime<Utc>` timestamps and durations
are integers counting milliseconds; on unix, paths are the byte sequences
of their `OsStr`, so `cwd` is a list of bytes (arbitrary naturals < 256
are not enforced, any list works).
-/

/-- Job lifecycle states, from `schema.rs` (`JobState`).  The enum has
exactly these four constructors; note there is no `Dequeued` state. -/
inductive JobState where
  | Queued
  | Done
  | Canceled
  | Doing
deriving DecidableEq, Repr

/-- SQL column encoding of a state, from the `ToSql` impl in `schema.rs`. -/
def JobState.toCode : JobState → Int
  | .Queued => 0
  | .Done => 1
  | .Canceled => 2
  | .Doing => 3

/-- A scheduled job, from `schema.rs` (`struct Job`).  `run_at` is the UTC
timestamp in milliseconds, `cwd` the byte sequence of the path. -/
structure Job where
  id : Int
  name : Option String
  state : JobState
  script : String
  run_at : Int
  cwd : List Nat
deriving DecidableEq, Repr

/-- The outcome row of one execution, from `schema.rs` (`struct JobResult`). -/
structure JobResult where
  id : Int
  job_id : Int
  status : Option Int
  stdout : String
  stderr : String
deriving DecidableEq, Repr

/-- `JobResult::new` from `schema.rs`. -/
def JobResult.new (job_id : Int) : JobResult :=
  { id := 0, job_id := job_id, status := none, stdout := "", stderr := "" }

/-- Unix `path_to_bytes` from `lib.rs`: the bytes of the `OsStr`, which for
our byte-sequence model of paths is the sequence itself. -/
def path_to_bytes (p : List Nat) : List Nat := p

/-- Unix `bytes_to_path` from `lib.rs`: rebuilds the path from its bytes. -/
def bytes_to_path (b : List Nat) : List Nat := b

/-- The SQLite database: the `jobs` and `job_results` tables created by
`create_table` in `lib.rs`, as lists of rows in rowid order. -/
structure Store where
  jobs : List Job
  results : List JobResult
deriving DecidableEq, Repr

/-- A freshly created database (after `create_table` on a new file). -/
def emptyStore : Store := { jobs := [], results := [] }

/-- Largest rowid present in `jobs` (0 on an empty table); SQLite assigns
the next rowid as max+1. -/
def maxJobId (s : Store) : Int := s.jobs.foldl (fun m j => max m j.id) 0

/-- Largest rowid present in `job_results` (0 on an empty table). -/
def maxResultId (s : Store) : Int := s.results.foldl (fun m r => max m r.id) 0

/-- `insert_job` from `lib.rs`: one transaction inserting the row with the
given fields (`cwd` through `path_to_bytes`) and returning
`last_insert_rowid`.  The `state` field is stored exactly as supplied. -/
def insert_job (s : Store) (job : Job) : Int × Store :=
  let id := maxJobId s + 1
  (id, { s with
          jobs := s.jobs ++ [{ job with id := id, cwd := path_to_bytes job.cwd }] })

/-- `JobManager::enqueue` from `lib.rs`: insert, then return the job with
the assigned id written into it. -/
def enqueue (s : Store) (job : Job) : Job × Store :=
  let r := insert_job s job
  ({ job with id := r.1 }, r.2)

/-- `get_job` from `lib.rs`: first row of `SELECT ... WHERE id = ?1`, with
`cwd` decoded by `bytes_to_path`. -/
def get_job (s : Store) (job_id : Int) : Option Job :=
  (s.jobs.find? (fun j => j.id = job_id)).map
    (fun j => { j with cwd := bytes_to_path j.cwd })

/-- `select_jobs` with `Some(JobState::Queued)` from `lib.rs`
(`select_queued_jobs`): table scan filtered on state, rows in rowid
order, `cwd` decoded by `bytes_to_path`. -/
def select_queued_jobs (s : Store) : List Job :=
  (s.jobs.filter (fun j => j.state = JobState.Queued)).map
    (fun j => { j with cwd := bytes_to_path j.cwd })

/-- `select_jobs` with `None` from `lib.rs` (`select_all_jobs`). -/
def select_all_jobs (s : Store) : List Job :=
  s.jobs.map (fun j => { j with cwd := bytes_to_path j.cwd })

/-- The comparator under which `JobManager::dequeue` sorts: Rust's
`sort_by(|a, b| a.run_at.cmp(&b.run_at).reverse())` is a stable sort that
puts `a` no later than `b` exactly when `b.run_at <= a.run_at`. -/
def deqLe (a b : Job) : Prop := b.run_at ≤ a.run_at

instance : DecidableRel deqLe :=
  fun a b => inferInstanceAs (Decidable (b.run_at ≤ a.run_at))

instance : IsTotal Job deqLe := ⟨fun a b => le_total b.run_at a.run_at⟩

instance : IsTrans Job deqLe := ⟨fun _ _ _ h1 h2 => le_trans h2 h1⟩

/-- `JobManager::dequeue` from `lib.rs`: read the queued jobs, stable-sort
them by descending `run_at` (Mathlib's `insertionSort` is a stable sort,
hence extensionally the same function as Rust's `sort_by`), and pop the
last element.  Note it performs no write at all. -/
def dequeue (s : Store) : Option Job :=
  (List.insertionSort deqLe (select_queued_jobs s)).getLast?

/-- `update_job_state` from `lib.rs`: `UPDATE jobs SET state = ?1 WHERE
id = ?2`. -/
def update_job_state (s : Store) (job : Job) (st : JobState) : Store :=
  { s with
    jobs := s.jobs.map (fun x => if x.id = job.id then { x with state := st } else x) }

/-- `insert_job_result` from `lib.rs` (the function behind
`JobManager::save_job_result`): a single `INSERT` into `job_results`, no
transaction with any other write and no job-state update.  The table
declares `status INTEGER NOT NULL` (`create_table`, `lib.rs`), so binding
a `None` status makes the `INSERT` fail with a constraint violation. -/
def insert_job_result (s : Store) (r : JobResult) : Except String Store :=
  match r.status with
  | none => Except.error "NOT NULL constraint failed: job_results.status"
  | some _ =>
      Except.ok { s with results := s.results ++ [{ r with id := maxResultId s + 1 }] }

/-- `get_job_result` from `lib.rs`: first row of `SELECT ... WHERE
job_id = ?1`. -/
def get_job_result (s : Store) (job : Job) : Option JobResult :=
  s.results.find? (fun r => r.job_id = job.id)

/-- `delete_job` from `lib.rs`: one transaction deleting the result rows
for the job and then the job row. -/
def delete_job (s : Store) (job : Job) : Store :=
  { jobs := s.jobs.filter (fun x => ¬ x.id = job.id),
    results := s.results.filter (fun x => ¬ x.job_id = job.id) }

/-- `JobManager::delete` from `lib.rs`, statement order preserved: it runs
`delete_job` FIRST and only afterwards tests `job.state == Doing`,
returning the "cannot delete a job that is currently running" error with
the deletion already committed.  The pair is (error if any, resulting
store). -/
def managerDelete (s : Store) (job : Job) : Option String × Store :=
  let s' := delete_job s job
  if job.state = JobState.Doing then
    (some "cannot delete a job that is currently running", s')
  else
    (none, s')

namespace Db

/-- `insert_job_result` from `db.rs`: one transaction that sets the parent
job's state to `Done` and inserts the result row.  If the `INSERT` fails
(`status` is `None` against the `NOT NULL` column) the transaction is
dropped uncommitted, so the state update is rolled back too: the error
case leaves the store unchanged. -/
def insertJobResult (s : Store) (r : JobResult) : Except String Store :=
  match r.status with
  | none => Except.error "NOT NULL constraint failed: job_results.status"
  | some _ =>
      Except.ok
        { jobs := s.jobs.map
            (fun x => if x.id = r.job_id then { x with state := JobState.Done } else x),
          results := s.results ++ [{ r with id := maxResultId s + 1 }] }

end Db

/-- Modelled from the spec: the Job Lease (Guard) handle of spec section
4.3.  The scheduler loop in `commands.rs` calls `job.mark_running()` and
`job.save_job_result(...)`, but the guard type carrying these methods is
absent from `src/` (only its callers are present); the spec describes it
as an in-memory handle for one dequeued job with a single-use resolution
flag. -/
structure Lease where
  job : Job
  resolved : Bool

/-- Modelled from the spec: `markRunning()` "persists `Running`"
(spec section 4.3); `Job::mark_running` is absent from `src/`, and the
state enum's name for running is `Doing` (`schema.rs`), matching the
`commands.rs` log line "update job state to Running".  It is the
`update_job_state` write of `lib.rs`. -/
def markRunning (s : Store) (job : Job) : Store :=
  update_job_state s job JobState.Doing

/-- Modelled from the spec: `saveResult(result)` of the lease "persists
the `JobResult` (via `insertJobResult`, which also sets `Done`) and marks
the lease resolved. Calling it on an already-resolved lease must fail"
(spec section 4.3).  `Job::save_job_result` is absent from `src/`; the
store write it names is the transactional `insert_job_result` present in
`db.rs`, embedded above as `Db.insertJobResult`. -/
def leaseSaveResult (s : Store) (l : Lease) (r : JobResult) :
    Except String (Store × Lease) :=
  if l.resolved then
    Except.error "job lease already resolved"
  else
    match Db.insertJobResult s r with
    | Except.error e => Except.error e
    | Except.ok s' => Except.ok (s', { l with resolved := true })

/-- Modelled from the spec: the `cancel` subcommand (`commands::Cancel`,
referenced by `main.rs` but absent from `src/`).  Spec section 4.3:
`cancel()` is "valid only while `Dequeued`" and "persists `Canceled`";
since the code has no `Dequeued` state and a job under the loop's custody
is `Queued` until `markRunning`, cancellation applies to a `Queued` job
and is a no-op otherwise. -/
def cancelCmd (s : Store) (job_id : Int) : Store :=
  match get_job s job_id with
  | none => s
  | some j =>
      if j.state = JobState.Queued then update_job_state s j JobState.Canceled else s

/-- `chrono::Duration::num_seconds` on a millisecond count: whole seconds,
truncated toward zero (Rust integer division). -/
def numSeconds (ms : Int) : Int := ms.tdiv 1000

/-- What one pass of `Run::run_job` (`commands.rs`) decides to do with a
dequeued job, given `wait = run_at - now`. -/
inductive TickPlan where
  | sleepReturn
  | sleepThenRun (waitMs : Int)
  | runNow
deriving DecidableEq, Repr

/-- The wait logic of `Run::run_job` (`commands.rs`): if
`wait_time.num_seconds() > 0` then either sleep one poll interval and
return (`wait_time > interval`) or sleep the remaining wait and run;
otherwise run at once. -/
def runJobPlan (job : Job) (now intervalMs : Int) : TickPlan :=
  let wait := job.run_at - now
  if 0 < numSeconds wait then
    if intervalMs < wait then TickPlan.sleepReturn
    else TickPlan.sleepThenRun wait
  else TickPlan.runNow

/-- What the spawned `/bin/sh -c script` did: failed to spawn, or exited
with an optional exit code (absent when terminated by a signal) and
captured output. -/
inductive ProcOutcome where
  | spawnErr
  | exited (status : Option Int) (stdout : String) (stderr : String)

/-- One iteration of `Run::run_job` (`commands.rs`) as a store transition:
dequeue; if a job is due, mark it running, spawn its script (outcome given
as input), build the `JobResult` (`status.code()` may be `None`), and save
it through the lease.  An error anywhere (`spawn` failure, rejected
insert) propagates out of the iteration, leaving the store as already
written. -/
def tick (s : Store) (now intervalMs : Int) (oc : ProcOutcome) : Store :=
  match dequeue s with
  | none => s
  | some job =>
      match runJobPlan job now intervalMs with
      | TickPlan.sleepReturn => s
      | _ =>
          let s1 := markRunning s job
          match oc with
          | ProcOutcome.spawnErr => s1
          | ProcOutcome.exited st sout serr =>
              let r := { JobResult.new job.id with
                          status := st, stdout := sout, stderr := serr }
              match leaseSaveResult s1 { job := job, resolved := false } r with
              | Except.error _ => s1
              | Except.ok p => p.1

/-- The state-changing operations the `rat` binary can perform on its
store (`main.rs` dispatch): `add` (always builds the job with state
`Queued`, `commands.rs`), a scheduler-loop iteration, `delete`, and
`cancel`.  `list` and `log` only read. -/
inductive Op where
  | add (name : Option String) (script : String) (runAt : Int) (cwd : List Nat)
  | tickOp (now : Int) (oc : ProcOutcome)
  | del (id : Int)
  | cancel (id : Int)

/-- Interpretation of one operation, with the loop's fixed 1-second poll
interval (`Run::run`, `commands.rs`). -/
def step (s : Store) : Op → Store
  | Op.add name script runAt cwd =>
      (enqueue s { id := 0, name := name, state := JobState.Queued,
                   script := script, run_at := runAt, cwd := cwd }).2
  | Op.tickOp now oc => tick s now 1000 oc
  | Op.del id =>
      match get_job s id with
      | none => s
      | some j => (managerDelete s j).2
  | Op.cancel id => cancelCmd s id

/-- Stores reachable by running the program's commands from a fresh
database. -/
def reach (ops : List Op) : Store := ops.foldl step emptyStore

/-- Decoding `cwd` through `bytes_to_path` is the identity on rows. -/
theorem cwdDecode_eq (j : Job) : { j with cwd := bytes_to_path j.cwd } = j := rfl

theorem map_cwdDecode : ∀ l : List Job,
    l.map (fun j => { j with cwd := bytes_to_path j.cwd }) = l
  | [] => rfl
  | a :: l => by rw [List.map_cons, map_cwdDecode l, cwdDecode_eq]

theorem select_queued_jobs_eq (s : Store) :
    select_queued_jobs s = s.jobs.filter (fun j => j.state = JobState.Queued) := by
  unfold select_queued_jobs
  rw [map_cwdDecode]

theorem get_job_eq (s : Store) (job_id : Int) :
    get_job s job_id = s.jobs.find? (fun j => j.id = job_id) := by
  unfold get_job
  cases s.jobs.find? (fun j => j.id = job_id) <;> rfl

/-- The element `Vec::pop` returns after the stable descending sort: the
last of the minimal-`run_at` elements in original order. -/
def lastMin : List Job → Option Job
  | [] => none
  | a :: l =>
      match lastMin l with
      | none => some a
      | some m => some (if a.run_at < m.run_at then a else m)

theorem lastMin_eq_none : ∀ {l : List Job}, lastMin l = none ↔ l = []
  | [] => by simp [lastMin]
  | a :: l => by
      unfold lastMin
      cases lastMin l <;> simp

theorem getLast?_orderedInsert (a : Job) :
    ∀ t : List Job, List.Sorted deqLe t → ∀ m, t.getLast? = some m →
      (List.orderedInsert deqLe a t).getLast? =
        some (if a.run_at < m.run_at then a else m)
  | [], _, m, hm => by simp at hm
  | [y], _, m, hm => by
      have hym : y = m := by simpa using hm
      subst hym
      by_cases h : deqLe a y
      · have h1 : ¬ a.run_at < y.run_at := not_lt.mpr h
        simp [List.orderedInsert, if_pos h, if_neg h1]
      · have h1 : a.run_at < y.run_at := lt_of_not_le h
        simp [List.orderedInsert, if_neg h, if_pos h1]
  | y :: y' :: t', hs, m, hm => by
      have hm' : (y' :: t').getLast? = some m := by
        simpa [List.getLast?_cons_cons] using hm
      have hmem : m ∈ y' :: t' := List.mem_of_getLast?_eq_some hm'
      by_cases h : deqLe a y
      · have hym : deqLe y m := (List.sorted_cons.mp hs).1 m hmem
        have hle : m.run_at ≤ a.run_at := le_trans hym h
        have h1 : ¬ a.run_at < m.run_at := not_lt.mpr hle
        show (if deqLe a y then a :: y :: y' :: t'
              else y :: List.orderedInsert deqLe a (y' :: t')).getLast? = _
        rw [if_pos h, if_neg h1, List.getLast?_cons_cons, List.getLast?_cons_cons]
        exact hm'
      · have ih := getLast?_orderedInsert a (y' :: t') (List.sorted_cons.mp hs).2 m hm'
        show (if deqLe a y then a :: y :: y' :: t'
              else y :: List.orderedInsert deqLe a (y' :: t')).getLast? = _
        rw [if_neg h]
        rcases List.exists_cons_of_ne_nil
            (show List.orderedInsert deqLe a (y' :: t') ≠ [] by
              intro hnil
              have := List.orderedInsert_length deqLe (y' :: t') a
              rw [hnil] at this
              simp at this) with ⟨b, bs, hbs⟩
        rw [hbs, List.getLast?_cons_cons, ← hbs]
        exact ih

theorem getLast?_insertionSort : ∀ l : List Job,
    (List.insertionSort deqLe l).getLast? = lastMin l
  | [] => rfl
  | a :: l => by
      show (List.orderedInsert deqLe a (List.insertionSort deqLe l)).getLast? = _
      cases h : lastMin l with
      | none =>
          have : l = [] := lastMin_eq_none.mp h
          subst this
          simp [lastMin]
      | some m =>
          have hs : List.Sorted deqLe (List.insertionSort deqLe l) :=
            List.sorted_insertionSort deqLe l
          have hl : (List.insertionSort deqLe l).getLast? = some m :=
            (getLast?_insertionSort l).trans h
          rw [getLast?_orderedInsert a _ hs m hl]
          simp [lastMin, h]

theorem dequeue_eq_lastMin (s : Store) :
    dequeue s = lastMin (select_queued_jobs s) :=
  getLast?_insertionSort _

theorem lastMin_mem : ∀ {l : List Job} {j : Job}, lastMin l = some j → j ∈ l
  | [], j, h => by simp [lastMin] at h
  | a :: l, j, h => by
      unfold lastMin at h
      cases hm : lastMin l with
      | none => rw [hm] at h; simp at h; simp [h]
      | some m =>
          rw [hm] at h
          simp at h
          by_cases hc : a.run_at < m.run_at
          · rw [if_pos hc] at h; simp [← h]
          · rw [if_neg hc] at h
            exact List.mem_cons_of_mem a (lastMin_mem (h ▸ hm))

theorem lastMin_min : ∀ {l : List Job} {j : Job}, lastMin l = some j →
    ∀ k ∈ l, j.run_at ≤ k.run_at
  | [], j, h => by simp [lastMin] at h
  | a :: l, j, h => by
      unfold lastMin at h
      cases hm : lastMin l with
      | none =>
          have : l = [] := lastMin_eq_none.mp hm
          subst this
          rw [hm] at h
          simp at h
          intro k hk
          simp at hk
          simp [← h, hk]
      | some m =>
          rw [hm] at h
          simp at h
          intro k hk
          rcases List.mem_cons.mp hk with hk | hk
          · rw [hk]
            by_cases hc : a.run_at < m.run_at
            · rw [if_pos hc] at h; rw [← h]
            · rw [if_neg hc] at h; rw [← h]; omega
          · have hmk := lastMin_min hm k hk
            by_cases hc : a.run_at < m.run_at
            · rw [if_pos hc] at h; rw [← h]; omega
            · rw [if_neg hc] at h; rw [← h]; exact hmk

theorem lastMin_tie : ∀ {l : List Job} {j : Job},
    l.Pairwise (fun a b => a.id < b.id) → lastMin l = some j →
    ∀ k ∈ l, k.run_at = j.run_at → k.id ≤ j.id
  | [], j, _, h => by simp [lastMin] at h
  | a :: l, j, hp, h => by
      unfold lastMin at h
      cases hm : lastMin l with
      | none =>
          have : l = [] := lastMin_eq_none.mp hm
          subst this
          rw [hm] at h
          simp at h
          intro k hk _
          simp at hk
          simp [← h, hk]
      | some m =>
          rw [hm] at h
          simp at h
          have hpl : l.Pairwise (fun a b => a.id < b.id) := (List.pairwise_cons.mp hp).2
          have hma : ∀ b ∈ l, a.id < b.id := (List.pairwise_cons.mp hp).1
          intro k hk hkr
          by_cases hc : a.run_at < m.run_at
          · rw [if_pos hc] at h
            subst h
            rcases List.mem_cons.mp hk with hk | hk
            · simp [hk]
            · have := lastMin_min hm k hk
              omega
          · rw [if_neg hc] at h
            subst h
            rcases List.mem_cons.mp hk with hk | hk
            · subst hk
              exact le_of_lt (hma m (lastMin_mem hm))
            · exact lastMin_tie hpl hm k hk hkr

theorem numSeconds_pos {w : Int} (h : 1000 ≤ w) : 0 < numSeconds w := by
  unfold numSeconds
  rw [Int.tdiv_eq_ediv (by omega) (by omega)]
  omega

theorem numSeconds_nonpos {w : Int} (h : w < 1000) : numSeconds w ≤ 0 := by
  unfold numSeconds
  rcases le_or_lt 0 w with h0 | h0
  · rw [Int.tdiv_eq_ediv h0 (by omega)]
    omega
  · have hneg : w.tdiv 1000 = -((-w).tdiv 1000) := by
      rw [← Int.neg_tdiv, neg_neg]
    have hnn : 0 ≤ (-w).tdiv 1000 := Int.tdiv_nonneg (by omega) (by omega)
    omega

theorem foldl_max_le_init : ∀ (l : List Job) (a : Int),
    a ≤ l.foldl (fun m j => max m j.id) a
  | [], a => le_refl a
  | x :: l, a => le_trans (le_max_left a x.id) (foldl_max_le_init l (max a x.id))

theorem le_foldl_max_of_mem : ∀ {l : List Job} {j : Job} (a : Int), j ∈ l →
    j.id ≤ l.foldl (fun m j => max m j.id) a
  | x :: l, j, a, h => by
      rcases List.mem_cons.mp h with h | h
      · rw [h]
        exact le_trans (le_max_right a x.id) (foldl_max_le_init l (max a x.id))
      · exact le_foldl_max_of_mem (max a x.id) h

theorem le_maxJobId_of_mem {s : Store} {j : Job} (h : j ∈ s.jobs) :
    j.id ≤ maxJobId s :=
  le_foldl_max_of_mem 0 h

/-- Whenever `dequeue` answers, the job it hands out is a row of the
`jobs` table whose persisted state is (still) `Queued`. -/
theorem dequeue_queued {s : Store} {j : Job} (h : dequeue s = some j) :
    j ∈ s.jobs ∧ j.state = JobState.Queued := by
  rw [dequeue_eq_lastMin] at h
  have hm := lastMin_mem h
  rw [select_queued_jobs_eq] at hm
  have hf := List.mem_filter.mp hm
  exact ⟨hf.1, by simpa using hf.2⟩

/-- Every result row has a present `status` and a parent job in state
`Done`. -/
def ResultsOk (s : Store) : Prop :=
  ∀ r ∈ s.results, r.status.isSome = true ∧
    ∃ j ∈ s.jobs, j.id = r.job_id ∧ j.state = JobState.Done

/-- Every `Done` job has a result row. -/
def DoneHasResult (s : Store) : Prop :=
  ∀ j ∈ s.jobs, j.state = JobState.Done → ∃ r ∈ s.results, r.job_id = j.id

/-- No two result rows reference the same job. -/
def UniqueResultPerJob (s : Store) : Prop :=
  s.results.Pairwise (fun a b => a.job_id ≠ b.job_id)

/-- The `jobs` table holds strictly increasing rowids in scan order. -/
def JobsSortedById (s : Store) : Prop :=
  s.jobs.Pairwise (fun a b => a.id < b.id)

/-- The store invariant maintained by every operation of the program. -/
def StoreInv (s : Store) : Prop :=
  ResultsOk s ∧ DoneHasResult s ∧ UniqueResultPerJob s ∧ JobsSortedById s

theorem pairwise_id_unique {l : List Job}
    (hp : l.Pairwise (fun a b => a.id < b.id)) :
    ∀ x ∈ l, ∀ y ∈ l, x.id = y.id → x = y := by
  induction hp with
  | nil => intro x hx; simp at hx
  | cons ha _ ih =>
      intro x hx y hy hxy
      rcases List.mem_cons.mp hx with hx1 | hx1 <;>
        rcases List.mem_cons.mp hy with hy1 | hy1
      · rw [hx1, hy1]
      · rw [hx1] at hxy ⊢
        exact absurd hxy (ne_of_lt (ha y hy1))
      · rw [hy1] at hxy ⊢
        exact absurd hxy.symm (ne_of_lt (ha x hx1))
      · exact ih x hx1 y hy1 hxy

theorem inv_empty : StoreInv emptyStore := by
  refine ⟨?_, ?_, ?_, ?_⟩ <;> simp [ResultsOk, DoneHasResult, UniqueResultPerJob,
    JobsSortedById, emptyStore]

theorem inv_insert_job {s : Store} (job : Job)
    (hq : job.state = JobState.Queued) (h : StoreInv s) : StoreInv (insert_job s job).2 := by
  obtain ⟨h1, h2, h3, h4⟩ := h
  unfold insert_job
  refine ⟨?_, ?_, ?_, ?_⟩
  · intro r hr
    obtain ⟨hst, j, hj, hji, hjd⟩ := h1 r hr
    exact ⟨hst, j, List.mem_append_left _ hj, hji, hjd⟩
  · intro j hj hjd
    rcases List.mem_append.mp hj with hj | hj
    · exact h2 j hj hjd
    · simp at hj
      rw [hj] at hjd
      simp [hq] at hjd
  · exact h3
  · rw [JobsSortedById, List.pairwise_append]
    refine ⟨h4, by simp, ?_⟩
    intro a ha b hb
    simp at hb
    rw [hb]
    simp only []
    have := le_maxJobId_of_mem (s := s) ha
    omega

theorem inv_update_state {s : Store} {job : Job} {st : JobState}
    (hst : st ≠ JobState.Done)
    (hnd : ∀ x ∈ s.jobs, x.id = job.id → x.state ≠ JobState.Done)
    (h : StoreInv s) : StoreInv (update_job_state s job st) := by
  obtain ⟨h1, h2, h3, h4⟩ := h
  unfold update_job_state
  refine ⟨?_, ?_, ?_, ?_⟩
  · intro r hr
    obtain ⟨hrs, j, hj, hji, hjd⟩ := h1 r hr
    refine ⟨hrs, j, ?_, hji, hjd⟩
    have hne : ¬ j.id = job.id := fun he => (hnd j hj he) hjd
    exact List.mem_map.mpr ⟨j, hj, by simp [hne]⟩
  · intro j' hj' hjd'
    rcases List.mem_map.mp hj' with ⟨x, hx, hfx⟩
    by_cases hxi : x.id = job.id
    · rw [if_pos hxi] at hfx
      rw [← hfx] at hjd'
      exact absurd hjd' hst
    · rw [if_neg hxi] at hfx
      rw [← hfx] at hjd' ⊢
      exact h2 x hx hjd'
  · exact h3
  · rw [JobsSortedById, List.pairwise_map]
    refine List.Pairwise.imp ?_ h4
    intro a b hab
    by_cases ha : a.id = job.id <;> by_cases hb : b.id = job.id <;>
      simp [ha, hb, hab] <;> omega

theorem inv_delete_job {s : Store} (job : Job) (h : StoreInv s) :
    StoreInv (delete_job s job) := by
  obtain ⟨h1, h2, h3, h4⟩ := h
  unfold delete_job
  refine ⟨?_, ?_, ?_, ?_⟩
  · intro r hr
    have hf := List.mem_filter.mp hr
    obtain ⟨hrs, j, hj, hji, hjd⟩ := h1 r hf.1
    refine ⟨hrs, j, List.mem_filter.mpr ⟨hj, ?_⟩, hji, hjd⟩
    simp at hf ⊢
    omega
  · intro j hj hjd
    have hf := List.mem_filter.mp hj
    obtain ⟨r, hr, hri⟩ := h2 j hf.1 hjd
    refine ⟨r, List.mem_filter.mpr ⟨hr, ?_⟩, hri⟩
    simp at hf ⊢
    omega
  · exact List.Pairwise.filter _ h3
  · exact List.Pairwise.filter _ h4

theorem managerDelete_snd (s : Store) (j : Job) :
    (managerDelete s j).2 = delete_job s j := by
  unfold managerDelete
  by_cases h : j.state = JobState.Doing <;> simp [h]

theorem inv_db_insert {s : Store} {r : JobResult} {x : Job} {v : Int}
    (hx : x ∈ s.jobs) (hxi : x.id = r.job_id) (hxd : x.state ≠ JobState.Done)
    (hst : r.status = some v) (h : StoreInv s) :
    ∀ s', Db.insertJobResult s r = Except.ok s' → StoreInv s' := by
  obtain ⟨h1, h2, h3, h4⟩ := h
  intro s' hok
  unfold Db.insertJobResult at hok
  rw [hst] at hok
  simp at hok
  have hnox : ∀ r' ∈ s.results, r'.job_id ≠ r.job_id := by
    intro r' hr' he
    obtain ⟨_, j, hj, hji, hjd⟩ := h1 r' hr'
    have hjx : j = x := pairwise_id_unique h4 j hj x hx (by omega)
    rw [hjx] at hjd
    exact hxd hjd
  rw [← hok]
  refine ⟨?_, ?_, ?_, ?_⟩
  · intro r' hr'
    rcases List.mem_append.mp hr' with hr1 | hr1
    · obtain ⟨hrs, j, hj, hji, hjd⟩ := h1 r' hr1
      have hne : ¬ j.id = r.job_id := by
        have := hnox r' hr1
        omega
      exact ⟨hrs, j, List.mem_map.mpr ⟨j, hj, by simp [hne]⟩, hji, hjd⟩
    · simp at hr1
      refine ⟨by simp [hr1], { x with state := JobState.Done },
        List.mem_map.mpr ⟨x, hx, by simp [hxi]⟩, ?_, rfl⟩
      simp [hr1]
      omega
  · intro j' hj' hjd'
    rcases List.mem_map.mp hj' with ⟨y, hy, hfy⟩
    by_cases hyi : y.id = r.job_id
    · refine ⟨{ r with id := maxResultId s + 1, status := some v },
        List.mem_append_right _ (by simp), ?_⟩
      rw [← hfy]
      simp [hyi]
    · rw [if_neg hyi] at hfy
      rw [← hfy] at hjd'
      obtain ⟨rr, hrr, hrri⟩ := h2 y hy hjd'
      refine ⟨rr, List.mem_append_left _ hrr, ?_⟩
      rw [← hfy]
      simp [hrri]
  · rw [UniqueResultPerJob, List.pairwise_append]
    refine ⟨h3, by simp, ?_⟩
    intro a ha b hb
    simp at hb
    rw [hb]
    simpa using hnox a ha
  · rw [JobsSortedById, List.pairwise_map]
    refine List.Pairwise.imp ?_ h4
    intro a b hab
    by_cases ha : a.id = r.job_id <;> by_cases hb : b.id = r.job_id <;>
      simp [ha, hb, hab] <;> omega

theorem inv_save_branch {s : Store} {job : Job}
    (hjm : job ∈ s.jobs) (hs1 : StoreInv (markRunning s job))
    (st : Option Int) (sout serr : String) :
    StoreInv
      (match leaseSaveResult (markRunning s job) { job := job, resolved := false }
          { JobResult.new job.id with status := st, stdout := sout, stderr := serr } with
        | Except.error _ => markRunning s job
        | Except.ok p => p.1) := by
  simp only [leaseSaveResult]
  cases st with
  | none => simp [Db.insertJobResult, JobResult.new]; exact hs1
  | some v =>
      cases hsv : Db.insertJobResult (markRunning s job)
          { JobResult.new job.id with
              status := some v, stdout := sout, stderr := serr } with
      | error e => simp [hsv]; exact hs1
      | ok s2 =>
          simp [hsv]
          refine inv_db_insert (v := v) (x := { job with state := JobState.Doing })
            ?_ (by simp [JobResult.new]) (by simp) (by simp [JobResult.new])
            hs1 s2 hsv
          exact List.mem_map.mpr ⟨job, hjm, by simp⟩

theorem inv_tick {s : Store} (now intervalMs : Int) (oc : ProcOutcome)
    (h : StoreInv s) : StoreInv (tick s now intervalMs oc) := by
  cases hd : dequeue s with
  | none => simp only [tick, hd]; exact h
  | some job =>
      simp only [tick, hd]
      obtain ⟨hjm, hjq⟩ := dequeue_queued hd
      have hnd : ∀ x ∈ s.jobs, x.id = job.id → x.state ≠ JobState.Done := by
        intro x hx hxi
        have hxeq := pairwise_id_unique h.2.2.2 x hx job hjm hxi
        rw [hxeq, hjq]
        simp
      have hs1 : StoreInv (markRunning s job) := by
        unfold markRunning
        exact inv_update_state (by simp) hnd h
      cases hp : runJobPlan job now intervalMs with
      | sleepReturn => exact h
      | sleepThenRun w =>
          cases oc with
          | spawnErr => exact hs1
          | exited st sout serr => exact inv_save_branch hjm hs1 st sout serr
      | runNow =>
          cases oc with
          | spawnErr => exact hs1
          | exited st sout serr => exact inv_save_branch hjm hs1 st sout serr

theorem inv_step {s : Store} (h : StoreInv s) : ∀ op, StoreInv (step s op) := by
  intro op
  cases op with
  | add name script runAt cwd => exact inv_insert_job _ rfl h
  | tickOp now oc => exact inv_tick now 1000 oc h
  | del id =>
      simp only [step]
      cases hg : get_job s id with
      | none => exact h
      | some j =>
          show StoreInv (managerDelete s j).2
          rw [managerDelete_snd]
          exact inv_delete_job j h
  | cancel id =>
      simp only [step, cancelCmd]
      cases hg : get_job s id with
      | none => exact h
      | some j =>
          show StoreInv
            (if j.state = JobState.Queued then update_job_state s j JobState.Canceled else s)
          by_cases hjs : j.state = JobState.Queued
          · rw [if_pos hjs]
            rw [get_job_eq] at hg
            have hjm : j ∈ s.jobs := List.mem_of_find?_eq_some hg
            have hnd : ∀ x ∈ s.jobs, x.id = j.id → x.state ≠ JobState.Done := by
              intro x hx hxi
              have hxeq := pairwise_id_unique h.2.2.2 x hx j hjm hxi
              rw [hxeq, hjs]
              simp
            exact inv_update_state (by simp) hnd h
          · rw [if_neg hjs]
            exact h

theorem inv_foldl : ∀ (ops : List Op) (s : Store), StoreInv s →
    StoreInv (ops.foldl step s)
  | [], _, h => h
  | op :: ops, s, h => inv_foldl ops (step s op) (inv_step h op)

/-- Every store reachable by running the program's commands from a fresh
database satisfies the store invariant. -/
theorem inv_reach (ops : List Op) : StoreInv (reach ops) :=
  inv_foldl ops emptyStore inv_empty

/-- Reading back the row that `enqueue` just inserted returns the supplied
record under the assigned id (the fresh id cannot collide: every existing
row's id is at most `maxJobId`). -/
theorem get_job_enqueue (s : Store) (job : Job) :
    get_job (enqueue s job).2 (maxJobId s + 1) =
      some { job with id := maxJobId s + 1 } := by
  rw [get_job_eq]
  show ((s.jobs ++ [{ job with id := maxJobId s + 1, cwd := path_to_bytes job.cwd }]).find?
    (fun j => j.id = maxJobId s + 1)) = some { job with id := maxJobId s + 1 }
  rw [List.find?_append]
  have hnone : s.jobs.find? (fun j => decide (j.id = maxJobId s + 1)) = none := by
    rw [List.find?_eq_none]
    intro x hx
    have := le_maxJobId_of_mem hx
    simp
    omega
  rw [hnone]
  simp [path_to_bytes]

def exJobC1 : Job :=
  { id := 1, name := none, state := JobState.Doing, script := "sleep 60",
    run_at := 0, cwd := [47] }

def exResC1 : JobResult :=
  { id := 1, job_id := 1, status := some 0, stdout := "", stderr := "" }

def exStoreC1 : Store := { jobs := [exJobC1], results := [exResC1] }

/-- C1: the claim says `delete` on a `Running` (`Doing`) job fails with
`InvalidState` and leaves both the job row and any existing result row
unchanged.  The error is indeed returned, but `JobManager::delete` runs
`delete_job` before it checks the state, so at that failure both rows are
already gone: evaluating the embedded `managerDelete` on a store holding a
`Doing` job with a result row yields the error together with a store in
which neither `get_job` nor `get_job_result` finds anything. -/
theorem delete_running_error_but_rows_gone :
    (managerDelete exStoreC1 exJobC1).1 =
      some "cannot delete a job that is currently running" ∧
    get_job (managerDelete exStoreC1 exJobC1).2 1 = none ∧
    get_job_result (managerDelete exStoreC1 exJobC1).2 exJobC1 = none :=
  ⟨rfl, rfl, rfl⟩

def exJobC2 : Job :=
  { id := 1, name := none, state := JobState.Queued, script := "echo hi",
    run_at := 0, cwd := [47] }

def exStoreC2 : Store := { jobs := [exJobC2], results := [] }

def exResC2 : JobResult :=
  { id := 0, job_id := 1, status := some 0, stdout := "hi\n", stderr := "" }

/-- C2: the claim says saving a result atomically inserts the result row
and flips the job to `Done`.  The function actually wired into
`JobManager::save_job_result` (`insert_job_result` in `lib.rs`) performs a
single bare `INSERT`: evaluating it shows the result row appears while the
job's persisted state stays `Queued` — the `Done` transition never
happens on this path (the transactional version that does both lives in
`db.rs` as `Db.insertJobResult` but is not what the manager calls). -/
theorem save_job_result_inserts_without_done :
    insert_job_result exStoreC2 exResC2 =
      Except.ok { jobs := [exJobC2], results := [{ exResC2 with id := 1 }] } ∧
    (get_job { jobs := [exJobC2], results := [{ exResC2 with id := 1 }] } 1).map
      Job.state = some JobState.Queued ∧
    some JobState.Queued ≠ some JobState.Done :=
  ⟨rfl, rfl, by decide⟩

/-- For contrast with C2: the `db.rs` transaction does set the parent job
to `Done` while inserting the row. -/
theorem db_insert_sets_done :
    Db.insertJobResult exStoreC2 exResC2 =
      Except.ok { jobs := [{ exJobC2 with state := JobState.Done }],
                  results := [{ exResC2 with id := 1 }] } := rfl

/-- C9: the claim says a result for a process terminated without an exit
code (killed by a signal) is saved with `status` absent.  The
`job_results` table declares `status INTEGER NOT NULL` (`create_table`),
so the `INSERT` binding a `None` status fails, on the bare `lib.rs` path
and inside the `db.rs` transaction alike: the save errors instead of
succeeding. -/
theorem save_none_status_rejected :
    insert_job_result exStoreC2 (JobResult.new 1) =
      Except.error "NOT NULL constraint failed: job_results.status" ∧
    Db.insertJobResult exStoreC2 (JobResult.new 1) =
      Except.error "NOT NULL constraint failed: job_results.status" :=
  ⟨rfl, rfl⟩

def exJobC3 : Job :=
  { id := 1, name := none, state := JobState.Queued, script := "true",
    run_at := 0, cwd := [47] }

def exStoreC3 : Store := { jobs := [exJobC3], results := [] }

/-- C3 (counterexample): `dequeue` returns job 1 while the persisted state
of job 1 is still `Queued` (there is no `Dequeued` state to transition
to, and `dequeue` performs no write), so an immediately repeated
`dequeue` on the resulting store — which is the same store — yields the
same job id again. -/
theorem dequeue_returns_job_still_queued :
    dequeue exStoreC3 = some exJobC3 ∧
    get_job exStoreC3 1 = some exJobC3 ∧
    exJobC3.state = JobState.Queued ∧
    dequeue exStoreC3 = some exJobC3 :=
  ⟨rfl, rfl, rfl, rfl⟩

/-- C3 (amended): whenever `dequeue` returns a job, that job is a row of
the store whose persisted state is still `Queued`; since `dequeue` writes
nothing, a second `dequeue` of the same store returns the same job. -/
theorem dequeue_without_transition {s : Store} {j : Job}
    (h : dequeue s = some j) :
    j ∈ s.jobs ∧ j.state = JobState.Queued ∧ dequeue s = some j :=
  ⟨(dequeue_queued h).1, (dequeue_queued h).2, h⟩

theorem dequeue_without_transition_witness :
    exJobC3 ∈ exStoreC3.jobs ∧ exJobC3.state = JobState.Queued ∧
    dequeue exStoreC3 = some exJobC3 :=
  dequeue_without_transition rfl

def exJobC4 : Job :=
  { id := 0, name := none, state := JobState.Doing, script := "true",
    run_at := 0, cwd := [47] }

/-- C4 (counterexample): enqueueing a job whose state field is `Doing`
persists it as `Doing`, not `Queued` — `insert_job` binds `job.state` as
supplied and `JobManager::enqueue` forces nothing. -/
theorem enqueue_does_not_force_queued :
    (get_job (enqueue emptyStore exJobC4).2 1).map Job.state =
      some JobState.Doing ∧
    JobState.Doing ≠ JobState.Queued :=
  ⟨rfl, by decide⟩

/-- C4 (amended): `enqueue(job)` persists the job with exactly the state
field it was given (the `Add` command is the caller that supplies
`Queued`) and returns the job carrying its newly assigned store id. -/
theorem enqueue_persists_given_state (s : Store) (job : Job) :
    (enqueue s job).1.id = maxJobId s + 1 ∧
    (get_job (enqueue s job).2 (enqueue s job).1.id).map Job.state =
      some job.state := by
  refine ⟨rfl, ?_⟩
  have h1 : (enqueue s job).1.id = maxJobId s + 1 := rfl
  rw [h1, get_job_enqueue]
  rfl

/-- C5: a store-and-read round trip — `get_job` on the id assigned by
`enqueue` returns exactly the `name`, `script`, `run_at` and `cwd`
supplied, for every byte-sequence `cwd` (in particular one that is not
valid text: `cwd` travels through `path_to_bytes`/`bytes_to_path`, which
on unix are inverse byte-level codings). -/
theorem enqueue_get_job_round_trip (s : Store) (job : Job) :
    (get_job (enqueue s job).2 (enqueue s job).1.id).map Job.name =
      some job.name ∧
    (get_job (enqueue s job).2 (enqueue s job).1.id).map Job.script =
      some job.script ∧
    (get_job (enqueue s job).2 (enqueue s job).1.id).map Job.run_at =
      some job.run_at ∧
    (get_job (enqueue s job).2 (enqueue s job).1.id).map Job.cwd =
      some job.cwd := by
  have h1 : (enqueue s job).1.id = maxJobId s + 1 := rfl
  rw [h1, get_job_enqueue]
  exact ⟨rfl, rfl, rfl, rfl⟩

def exJobC6a : Job :=
  { id := 1, name := none, state := JobState.Queued, script := "first",
    run_at := 5, cwd := [47] }

def exJobC6b : Job :=
  { id := 2, name := none, state := JobState.Queued, script := "second",
    run_at := 5, cwd := [47] }

def exStoreC6 : Store := { jobs := [exJobC6a, exJobC6b], results := [] }

/-- C6 (counterexample): with two queued jobs of equal `run_at` and ids
1 and 2, `dequeue` returns the job with id 2 — the stable descending
sort keeps equal elements in scan order and `pop` takes the last, so
ties go to the HIGHEST id, not the lowest as claimed. -/
theorem dequeue_tie_not_lowest_id :
    (dequeue exStoreC6).map Job.id = some 2 ∧ (2 : Int) ≠ 1 :=
  ⟨rfl, by decide⟩

/-- C6 (amended): when a queued job exists, `dequeue` returns a queued job
with the smallest `run_at`; among several queued jobs sharing that
smallest `run_at` it returns the one latest in table-scan order, i.e. the
one with the HIGHEST id when the table's rowids increase in scan order
(which `insert_job`'s max+1 assignment maintains). -/
theorem dequeue_min_run_at_tie_highest_id {s : Store} {j : Job}
    (hsorted : s.jobs.Pairwise (fun a b => a.id < b.id))
    (h : dequeue s = some j) :
    j ∈ select_queued_jobs s ∧
    (∀ k ∈ select_queued_jobs s, j.run_at ≤ k.run_at) ∧
    (∀ k ∈ select_queued_jobs s, k.run_at = j.run_at → k.id ≤ j.id) := by
  rw [dequeue_eq_lastMin] at h
  have hp : (select_queued_jobs s).Pairwise (fun a b => a.id < b.id) := by
    rw [select_queued_jobs_eq]
    exact List.Pairwise.filter _ hsorted
  exact ⟨lastMin_mem h, lastMin_min h, lastMin_tie hp h⟩

theorem dequeue_min_run_at_tie_highest_id_witness :
    exJobC6b ∈ select_queued_jobs exStoreC6 ∧
    (∀ k ∈ select_queued_jobs exStoreC6, exJobC6b.run_at ≤ k.run_at) ∧
    (∀ k ∈ select_queued_jobs exStoreC6,
      k.run_at = exJobC6b.run_at → k.id ≤ exJobC6b.id) :=
  dequeue_min_run_at_tie_highest_id (by decide) rfl

def exJobC7 : Job :=
  { id := 1, name := none, state := JobState.Queued, script := "true",
    run_at := 500, cwd := [47] }

/-- C7 (counterexample): a dequeued job due in half a second (wait = 500ms,
poll interval 1000ms) falls in the claim's middle branch "0 < wait <=
pollInterval: sleep exactly the remaining wait, then execute", but
`wait_time.num_seconds() > 0` truncates 0.5s to 0, so the code executes
immediately with no sleep. -/
theorem run_job_plan_subsecond_no_sleep :
    runJobPlan exJobC7 0 1000 = TickPlan.runNow ∧
    TickPlan.runNow ≠ TickPlan.sleepThenRun 500 :=
  ⟨rfl, by decide⟩

/-- C7 (amended): with `wait = run_at - now` and a poll interval of at
least one second (the loop uses exactly 1s): if `wait > pollInterval` the
tick sleeps one poll interval and ends without marking the job running or
executing it (the store is returned unchanged); if `1s <= wait <=
pollInterval` it sleeps exactly the remaining wait and then executes; and
if `wait < 1s` — including the claim's `wait <= 0` and additionally all
positive sub-second waits, which the whole-second truncation of
`num_seconds` sends to the same branch — it executes immediately with no
sleep. -/
theorem run_job_wait_cases (job : Job) (now intervalMs : Int)
    (hint : 1000 ≤ intervalMs) :
    (intervalMs < job.run_at - now →
      runJobPlan job now intervalMs = TickPlan.sleepReturn ∧
      ∀ (s : Store) (oc : ProcOutcome), dequeue s = some job →
        tick s now intervalMs oc = s) ∧
    (1000 ≤ job.run_at - now → job.run_at - now ≤ intervalMs →
      runJobPlan job now intervalMs = TickPlan.sleepThenRun (job.run_at - now)) ∧
    (job.run_at - now < 1000 →
      runJobPlan job now intervalMs = TickPlan.runNow) := by
  refine ⟨?_, ?_, ?_⟩
  · intro hw
    have hpos : 0 < numSeconds (job.run_at - now) := numSeconds_pos (by omega)
    have hplan : runJobPlan job now intervalMs = TickPlan.sleepReturn := by
      unfold runJobPlan
      rw [if_pos hpos, if_pos hw]
    refine ⟨hplan, ?_⟩
    intro s oc hd
    simp only [tick, hd, hplan]
  · intro h1 h2
    have hpos : 0 < numSeconds (job.run_at - now) := numSeconds_pos h1
    unfold runJobPlan
    rw [if_pos hpos, if_neg (not_lt.mpr h2)]
  · intro hw
    have hnp : ¬ 0 < numSeconds (job.run_at - now) :=
      not_lt.mpr (numSeconds_nonpos hw)
    unfold runJobPlan
    rw [if_neg hnp]

def exJobC7far : Job :=
  { id := 1, name := none, state := JobState.Queued, script := "true",
    run_at := 3600000, cwd := [47] }

def exJobC7one : Job :=
  { id := 1, name := none, state := JobState.Queued, script := "true",
    run_at := 1000, cwd := [47] }

def exStoreC7far : Store := { jobs := [exJobC7far], results := [] }

theorem run_job_wait_cases_witness :
    (runJobPlan exJobC7far 0 1000 = TickPlan.sleepReturn ∧
      tick exStoreC7far 0 1000 ProcOutcome.spawnErr = exStoreC7far) ∧
    runJobPlan exJobC7one 0 1000 = TickPlan.sleepThenRun 1000 ∧
    runJobPlan exJobC7 0 1000 = TickPlan.runNow := by
  have hfar := (run_job_wait_cases exJobC7far 0 1000 (by decide)).1 (by decide)
  have hone := (run_job_wait_cases exJobC7one 0 1000 (by decide)).2.1
    (by decide) (by decide)
  have hnow := (run_job_wait_cases exJobC7 0 1000 (by decide)).2.2 (by decide)
  exact ⟨⟨hfar.1, hfar.2 exStoreC7far ProcOutcome.spawnErr rfl⟩, hone, hnow⟩

/-- C8: `saveResult` on an already-resolved lease is rejected (the lease is
single-use), and in every store reachable by the program's operations the
`job_results` table holds at most one row per job id (no two rows share a
`job_id`). -/
theorem save_result_single_use_unique_row :
    (∀ (s : Store) (l : Lease) (r : JobResult), l.resolved = true →
      leaseSaveResult s l r = Except.error "job lease already resolved") ∧
    (∀ ops : List Op,
      (reach ops).results.Pairwise (fun a b => a.job_id ≠ b.job_id)) := by
  constructor
  · intro s l r h
    unfold leaseSaveResult
    simp [h]
  · intro ops
    exact (inv_reach ops).2.2.1

def opsC10 : List Op :=
  [Op.add none "true" 0 [47], Op.tickOp 0 (ProcOutcome.exited (some 0) "" "")]

theorem save_result_single_use_unique_row_witness :
    leaseSaveResult emptyStore { job := exJobC3, resolved := true }
      (JobResult.new 1) = Except.error "job lease already resolved" ∧
    (reach opsC10).results.Pairwise (fun a b => a.job_id ≠ b.job_id) :=
  ⟨save_result_single_use_unique_row.1 emptyStore
      { job := exJobC3, resolved := true } (JobResult.new 1) rfl,
    save_result_single_use_unique_row.2 opsC10⟩

/-- C10: in every reachable store, every job whose persisted state is
`Done` has a result row retrievable by `get_job_result`, and that row's
`status` is present — the two assertions of the `list` command hold on
all stores the program can produce (the `NOT NULL` column on `status`
makes a `Done`-with-absent-status state unreachable). -/
theorem list_assertions_hold (ops : List Op) :
    ∀ j ∈ (reach ops).jobs, j.state = JobState.Done →
      ∃ r, get_job_result (reach ops) j = some r ∧ r.status.isSome = true := by
  intro j hj hjd
  obtain ⟨h1, h2, _, _⟩ := inv_reach ops
  obtain ⟨r0, hr0, hr0i⟩ := h2 j hj hjd
  have hsome : ((reach ops).results.find? (fun r => r.job_id = j.id)).isSome := by
    rw [List.find?_isSome]
    exact ⟨r0, hr0, by simp [hr0i]⟩
  obtain ⟨r, hr⟩ := Option.isSome_iff_exists.mp hsome
  refine ⟨r, hr, ?_⟩
  exact (h1 r (List.mem_of_find?_eq_some hr)).1

def jobDoneC10 : Job :=
  { id := 1, name := none, state := JobState.Done, script := "true",
    run_at := 0, cwd := [47] }

theorem list_assertions_hold_witness :
    ∃ r, get_job_result (reach opsC10) jobDoneC10 = some r ∧
      r.status.isSome = true :=
  list_assertions_hold opsC10 jobDoneC10 (by decide) rfl
